import Mathlib

/-
A verification development for the size-label-action repository
(src/index.js).  The core logic of the action is shallowly embedded
below: the ignore-pattern predicate (`parseIgnored`'s inner `isIgnored`
loop), the diff-metric accumulation of `main`, the threshold classifier
`getSizeLabel`, and the label reconciler `getLabelChanges`.  All
definitions are direct translations of the JavaScript source; JavaScript
strings are modelled as Lean `String`, `null` as `Option.none`, arrays
as `List`, and objects `{ name }` as one-field structures.
-/

namespace SizeLabelAction

/-- Model of JavaScript `String.prototype.startsWith`, at the level of the
character sequence of the string (the paths and label names involved are
ASCII, where code units and characters coincide). -/
def startsWithStr (s pre : String) : Bool := pre.data.isPrefixOf s.data

/-! ## PatternMatcher: `parseIgnored` (src/index.js lines 148-176)

`parseIgnored` compiles each non-blank, non-comment line of the
`IGNORED` input into either `{ not: globrex(...) }` (for a leading `!`)
or a plain `globrex(...)` entry.  A compiled entry is modelled as an
`IgnoreRule`: the `isNegate` flag records which of the two shapes it
has, and `test` is the compiled regex-match predicate
`pathname.match(entry.regex)` on the stripped path. -/

structure IgnoreRule where
  isNegate : Bool
  test : String → Bool

/-- The rule loop of `isIgnored` (src/index.js lines 163-172): iterate the
compiled entries in declaration order; a matching negated entry returns
`false` immediately; otherwise the first matching plain entry sets the
`ignore` flag, which later matches leave unchanged. -/
def ignoredLoop (pathname : String) : List IgnoreRule → Bool → Bool
  | [], ignore => ignore
  | r :: rs, ignore =>
    if r.isNegate then
      if r.test pathname then false else ignoredLoop pathname rs ignore
    else
      if !ignore && r.test pathname then ignoredLoop pathname rs true
      else ignoredLoop pathname rs ignore

/-- The inner `isIgnored(path)` of `parseIgnored` (src/index.js lines
158-174): `null` paths and the `"/dev/null"` sentinel are ignored;
otherwise the leading two characters (the diff `a/` / `b/` marker,
`path.substr(2)`) are stripped and the rule loop runs with the flag
initially `false`. -/
def isIgnored (rules : List IgnoreRule) (path : Option String) : Bool :=
  match path with
  | none => true
  | some p =>
    if p == "/dev/null" then true
    else ignoredLoop (String.mk (p.data.drop 2)) rules false

/-- The compiled form of the ignore rule `docs/**`: `globrex` with the
`extended` and `globstar` options produces the anchored regex
`^docs\/((?:[^\/]*(?:\/|$))*)$`.  Every string decomposes into
`/`-separated segments, so the group matches every suffix, and the regex
accepts exactly the strings that begin with `docs/`. -/
def docsRule : IgnoreRule := ⟨false, fun p => startsWithStr p "docs/"⟩

/-- The compiled form of the negated ignore rule `!docs/keep.md`:
`globrex` produces the anchored regex `^docs\/keep\.md$`, which accepts
exactly the string `docs/keep.md`. -/
def keepRule : IgnoreRule := ⟨true, fun p => p == "docs/keep.md"⟩

/-! ## DiffAnalyzer: the metric loop of `main` (src/index.js lines 75-99) -/

/-- One hunk of a parsed diff file: the raw lines, each carrying its
`+` / `-` / space prefix (the shape produced by `Diff.parsePatch`). -/
structure Hunk where
  lines : List String

/-- One file record of a parsed diff, as produced by `Diff.parsePatch`:
`oldFileName` / `newFileName` are `null` or path strings (with their
`a/` / `b/` prefix), plus the hunks. -/
structure DiffFile where
  oldFileName : Option String
  newFileName : Option String
  hunks : List Hunk

/-- `line[0] === "+"` (src/index.js line 82): the first character of the
line is `+`; an empty line has no first character. -/
def isAddedLine (line : String) : Bool :=
  match line.data with
  | [] => false
  | c :: _ => c == '+'

/-- `(line.match(UKRAINIAN_REGEX) || []).length` (src/index.js line 84)
with `UKRAINIAN_REGEX = /[Ѐ-ӿ]/g`: the number of characters of
the line inside the Cyrillic block U+0400..U+04FF (a single-character
class under global matching counts each such character once). -/
def ukrainianCount (line : String) : Nat :=
  (line.data.filter fun c => decide (0x400 ≤ c.toNat ∧ c.toNat ≤ 0x4FF)).length

/-- The contribution of one diff file to the counter (src/index.js lines
80-87): over all hunks, the Ukrainian-character count of every line
whose first character is `+`. -/
def fileCount (f : DiffFile) : Nat :=
  f.hunks.foldl
    (fun acc h =>
      h.lines.foldl
        (fun a line => if isAddedLine line then a + ukrainianCount line else a) acc)
    0

/-- The inclusion test of the metric loop (src/index.js line 78):
`!isIgnored(file.oldFileName) || !isIgnored(file.newFileName)`. -/
def includedFile (rules : List IgnoreRule) (f : DiffFile) : Bool :=
  !isIgnored rules f.oldFileName || !isIgnored rules f.newFileName

/-- The accumulation of `ukrainianCharactersNumber` over the parsed diff
(src/index.js lines 76-90): each file passing the inclusion test adds
its `fileCount`. -/
def totalMetric (rules : List IgnoreRule) (files : List DiffFile) : Nat :=
  files.foldl (fun acc f => if includedFile rules f then acc + fileCount f else acc) 0

/-! ## SizeClassifier: `getSizeLabel` (src/index.js lines 190-198) -/

/-- The numeric ascending comparison `(a, b) => a - b` used to sort the
threshold keys (src/index.js line 192), on key/label pairs. -/
def keyLe (a b : Nat × String) : Prop := a.1 ≤ b.1

instance : DecidableRel keyLe := fun a b => inferInstanceAs (Decidable (a.1 ≤ b.1))

instance : IsTrans (Nat × String) keyLe := ⟨fun _ _ _ hab hbc => Nat.le_trans hab hbc⟩

instance : IsTotal (Nat × String) keyLe := ⟨fun a b => Nat.le_total a.1 b.1⟩

/-- `defaultSizes` (src/index.js lines 10-18), as key/label pairs. -/
def defaultSizes : List (Nat × String) :=
  [(1, "XXS"), (10, "XS"), (100, "S"), (1000, "M"), (5000, "L"), (10000, "XL"), (20000, "XXL")]

/-- `getSizeLabel` (src/index.js lines 190-198): starting from
`label = null`, walk the threshold entries in ascending key order and
overwrite `label` with `` `size/${sizes[lines]}` `` whenever
`changedLines >= lines`. -/
def getSizeLabel (changedLines : Nat) (sizes : List (Nat × String)) : Option String :=
  (List.insertionSort keyLe sizes).foldl
    (fun label p => if p.1 ≤ changedLines then some ("size/" ++ p.2) else label) none

/-- Helper for reasoning about the `getSizeLabel` fold: the last entry of
the list whose key is at most `m`, if any. -/
def lastMatch (m : Nat) : List (Nat × String) → Option (Nat × String)
  | [] => none
  | p :: t =>
    match lastMatch m t with
    | some q => some q
    | none => if p.1 ≤ m then some p else none

/-- The index of a tier of the default table, ordering tiers by ascending
threshold key, with the absent label below every tier. -/
def tierIdx : Option String → Nat
  | none => 0
  | some l =>
    if l = "size/XXS" then 1
    else if l = "size/XS" then 2
    else if l = "size/S" then 3
    else if l = "size/M" then 4
    else if l = "size/L" then 5
    else if l = "size/XL" then 6
    else if l = "size/XXL" then 7
    else 0

/-! ## LabelReconciler: `getLabelChanges` (src/index.js lines 200-232) -/

/-- A current pull-request label, an element of
`eventData.pull_request.labels`: an object whose `name` field holds the
label string (the reconciler destructures exactly this field). -/
structure Label where
  name : String
  deriving DecidableEq

/-- The delta returned by `getLabelChanges`: `add` starts as
`[newLabel]`, so it is a list of nullable strings; `remove` only ever
receives plain names. -/
structure Delta where
  add : List (Option String)
  remove : List String
  deriving DecidableEq

/-- `existingLabels.includes(s)` for a string `s` (src/index.js lines
214, 218, 223, 227).  `existingLabels` is the array of label *objects*
and `Array.prototype.includes` compares with SameValueZero, under which
an object is never equal to a string: the test of each element is
`false`, so the call returns `false` for every input. -/
def labelsIncludes (existingLabels : List Label) (_s : String) : Bool :=
  existingLabels.any fun _l => false

/-- The body of the size-family loop of `getLabelChanges` (src/index.js
lines 203-212), acting on the `(add, remove)` pair: for a current label
whose name starts with `size/`, pop the last element of `add` when the
name equals `newLabel` (`===` between a string and a possibly-null
`newLabel`), else push the name onto `remove`; other labels are left
alone. -/
def sizeStep (newLabel : Option String) (ar : List (Option String) × List String)
    (l : Label) : List (Option String) × List String :=
  if startsWithStr l.name "size/" then
    if newLabel = some l.name then (ar.1.dropLast, ar.2)
    else (ar.1, ar.2 ++ [l.name])
  else ar

/-- `getLabelChanges` (src/index.js lines 200-232): the size-family loop
over the current labels, then the `translation` branch
(`newLabel === "size/XXS"` removes it when `includes` says present,
otherwise it is added when `includes` says absent), then the `update`
branch keyed on `hasUpdatedOldFiles`. -/
def getLabelChanges (newLabel : Option String) (existingLabels : List Label)
    (hasUpdatedOldFiles : Bool) : Delta :=
  let sized := existingLabels.foldl (sizeStep newLabel) ([newLabel], [])
  let afterTranslation :=
    if newLabel = some "size/XXS" then
      if labelsIncludes existingLabels "translation" then (sized.1, sized.2 ++ ["translation"])
      else sized
    else
      if labelsIncludes existingLabels "translation" then sized
      else (sized.1 ++ [some "translation"], sized.2)
  let afterUpdates :=
    if hasUpdatedOldFiles then
      if labelsIncludes existingLabels "update" then afterTranslation
      else (afterTranslation.1 ++ [some "update"], afterTranslation.2)
    else
      if labelsIncludes existingLabels "update" then
        (afterTranslation.1, afterTranslation.2 ++ ["update"])
      else afterTranslation
  { add := afterUpdates.1, remove := afterUpdates.2 }

/-- Applying a delta to a current label set, as the idempotence claim
describes it: every name in `remove` is detached, then every non-null
entry of `add` is attached.  This mirrors the platform-side label update
that `main` requests from the returned delta. -/
def applyDelta (labels : List Label) (d : Delta) : List Label :=
  labels.filter (fun l => !d.remove.contains l.name)
    ++ d.add.filterMap (fun o => o.map Label.mk)

/-! ## Reconciler lemmas -/

lemma labelsIncludes_eq_false (ls : List Label) (s : String) :
    labelsIncludes ls s = false := by
  simp [labelsIncludes]

lemma sizeStep_fold_fst_nil (newLabel : Option String) :
    ∀ (ls : List Label) (r : List String),
      (ls.foldl (sizeStep newLabel) ([], r)).1 = [] := by
  intro ls
  induction ls with
  | nil => intro r; rfl
  | cons l t ih =>
    intro r
    simp only [List.foldl_cons, sizeStep]
    split_ifs <;> simp [ih]

/-- The `add` component after the size-family loop: `newLabel` has been
popped exactly when some current label is a size label equal to it. -/
lemma sizeStep_fold_fst (newLabel : Option String) :
    ∀ (ls : List Label) (r : List String),
      (ls.foldl (sizeStep newLabel) ([newLabel], r)).1 =
        if ls.any (fun l => startsWithStr l.name "size/" && decide (newLabel = some l.name))
        then [] else [newLabel] := by
  intro ls
  induction ls with
  | nil => intro r; simp
  | cons l t ih =>
    intro r
    simp only [List.foldl_cons, List.any_cons]
    by_cases hs : startsWithStr l.name "size/" = true
    · by_cases he : newLabel = some l.name
      · subst he
        simp [sizeStep, hs, sizeStep_fold_fst_nil]
      · simp [sizeStep, hs, he, ih]
    · simp [sizeStep, hs, ih]

/-- The `remove` component after the size-family loop: exactly the names
of current size-family labels different from `newLabel`, in order. -/
lemma sizeStep_fold_snd (newLabel : Option String) :
    ∀ (ls : List Label) (a : List (Option String)) (r : List String),
      (ls.foldl (sizeStep newLabel) (a, r)).2 =
        r ++ (ls.filter
          (fun l => startsWithStr l.name "size/" && !decide (newLabel = some l.name))).map
            (fun l => l.name) := by
  intro ls
  induction ls with
  | nil => intro a r; simp
  | cons l t ih =>
    intro a r
    simp only [List.foldl_cons, List.filter_cons]
    by_cases hs : startsWithStr l.name "size/" = true
    · by_cases he : newLabel = some l.name
      · subst he
        simp [sizeStep, hs, ih]
      · simp [sizeStep, hs, he, ih]
    · simp [sizeStep, hs, ih]

/-- Closed form of `getLabelChanges` on the code as written: the
`includes` checks are constantly false, so `translation` is added
whenever `newLabel ≠ "size/XXS"` and never removed, and `update` is
added whenever the flag is set and never removed. -/
lemma getLabelChanges_eq (newLabel : Option String) (ls : List Label) (flag : Bool) :
    getLabelChanges newLabel ls flag =
      ⟨(if ls.any (fun l => startsWithStr l.name "size/" && decide (newLabel = some l.name))
          then [] else [newLabel])
        ++ (if newLabel = some "size/XXS" then [] else [some "translation"])
        ++ (if flag then [some "update"] else []),
       (ls.filter
          (fun l => startsWithStr l.name "size/" && !decide (newLabel = some l.name))).map
            (fun l => l.name)⟩ := by
  have hf := sizeStep_fold_fst newLabel ls []
  have hr := sizeStep_fold_snd newLabel ls [newLabel] []
  cases hany : ls.any (fun l => startsWithStr l.name "size/" && decide (newLabel = some l.name)) with
  | false =>
    rw [hany] at hf
    simp only [Bool.false_eq_true, if_false] at hf
    by_cases hx : newLabel = some "size/XXS"
    · subst hx
      cases flag <;>
        simp [getLabelChanges, labelsIncludes_eq_false, hf, hr, hany, List.append_assoc]
    · cases flag <;>
        simp [getLabelChanges, labelsIncludes_eq_false, hx, hf, hr, hany, List.append_assoc]
  | true =>
    rw [hany] at hf
    simp only [if_true] at hf
    by_cases hx : newLabel = some "size/XXS"
    · subst hx
      cases flag <;>
        simp [getLabelChanges, labelsIncludes_eq_false, hf, hr, hany, List.append_assoc]
    · cases flag <;>
        simp [getLabelChanges, labelsIncludes_eq_false, hx, hf, hr, hany, List.append_assoc]

/-! ## Claims about the reconciler -/

/-- Claim C1: reconciliation is claimed to be idempotent, but the code is
not.  With desired label `size/M`, empty current labels and the flag
off, the first delta adds `size/M` and `translation`; applying it and
re-running `getLabelChanges` yields the nonempty delta
`{add: ["translation"], remove: []}`, because
`existingLabels.includes("translation")` compares the label objects with
a string and is always false, so `translation` is pushed again. -/
theorem reconcile_rerun_delta :
    getLabelChanges (some "size/M") [] false =
        ⟨[some "size/M", some "translation"], []⟩ ∧
      getLabelChanges (some "size/M")
          (applyDelta [] (getLabelChanges (some "size/M") [] false)) false =
        ⟨[some "translation"], []⟩ := by
  decide

/-- Claim C2: the claimed translation-marker rule fails on the code.
With desired label `size/XXS` and `translation` present, the code
removes nothing (the claim schedules its removal); with desired label
`size/M` and `translation` present, the code adds `translation` again
(the claim adds it only when absent).  Both stem from
`existingLabels.includes("translation")` being constantly false on the
array of label objects. -/
theorem translation_rule_eval :
    (getLabelChanges (some "size/XXS") [⟨"translation"⟩] false).remove = [] ∧
      (getLabelChanges (some "size/M") [⟨"translation"⟩] false).add =
        [some "size/M", some "translation"] := by
  decide

/-- Claim C3: the claimed update-marker rule fails on the code.  With the
flag off and `update` present, the code removes nothing (the claim
schedules its removal); with the flag on and `update` present, the code
adds `update` again (the claim adds it only when absent).  Both stem
from `existingLabels.includes("update")` being constantly false on the
array of label objects. -/
theorem update_rule_eval :
    (getLabelChanges (some "size/M") [⟨"update"⟩] false).remove = [] ∧
      (getLabelChanges (some "size/M") [⟨"update"⟩] true).add =
        [some "size/M", some "translation", some "update"] := by
  decide

/-- Claim C4: at metric 0 the classifier returns no size label, and the
reconciler run with that absent label adds no size label at all while
scheduling every current `size/`-family label for removal. -/
theorem metric_zero_reconcile (ls : List Label) (flag : Bool) :
    getSizeLabel 0 defaultSizes = none ∧
      (∀ o ∈ (getLabelChanges none ls flag).add,
        ∀ s, o = some s → startsWithStr s "size/" = false) ∧
      (∀ l ∈ ls, startsWithStr l.name "size/" = true →
        l.name ∈ (getLabelChanges none ls flag).remove) := by
  refine ⟨by decide, ?_, ?_⟩
  · rw [getLabelChanges_eq]
    have hany : (ls.any fun l =>
        startsWithStr l.name "size/" && decide ((none : Option String) = some l.name)) = false := by
      simp
    rw [hany]
    intro o ho s hs
    subst hs
    simp only [Bool.false_eq_true, if_false, List.mem_append] at ho
    rcases ho with (ho | ho) | ho
    · simp at ho
    · have : (some s : Option String) = some "translation" := by
        simpa using ho
      simp only [Option.some.injEq] at this
      subst this
      decide
    · rcases flag with _ | _
      · simp at ho
      · have : (some s : Option String) = some "update" := by
          simpa using ho
        simp only [Option.some.injEq] at this
        subst this
        decide
  · rw [getLabelChanges_eq]
    intro l hl hstart
    simp only [Delta.remove]
    refine List.mem_map.mpr ⟨l, List.mem_filter.mpr ⟨hl, ?_⟩, rfl⟩
    simp [hstart]

/-- Witness for C4 at a concrete input: with current label `size/S`, the
reconciler driven by the absent size label removes `size/S`, and the
`translation` entry that does land in `add` is not a size label. -/
theorem metric_zero_reconcile_witness :
    "size/S" ∈ (getLabelChanges none [⟨"size/S"⟩] false).remove ∧
      startsWithStr "translation" "size/" = false :=
  ⟨(metric_zero_reconcile [⟨"size/S"⟩] false).2.2 ⟨"size/S"⟩ (by decide) (by decide),
   (metric_zero_reconcile [⟨"size/S"⟩] false).2.1 (some "translation") (by decide)
     "translation" rfl⟩

/-- Claim C5: no label name appears in both the `add` and the `remove`
list of a delta produced by `getLabelChanges`. -/
theorem add_remove_disjoint (newLabel : Option String) (ls : List Label) (flag : Bool)
    (s : String) (hs : s ∈ (getLabelChanges newLabel ls flag).remove) :
    some s ∉ (getLabelChanges newLabel ls flag).add := by
  rw [getLabelChanges_eq] at hs ⊢
  simp only [Delta.remove] at hs
  rcases List.mem_map.mp hs with ⟨l, hl, hname⟩
  rcases List.mem_filter.mp hl with ⟨-, hpred⟩
  simp only [Bool.and_eq_true, Bool.not_eq_true', decide_eq_false_iff_not] at hpred
  subst hname
  intro hmem
  simp only [Delta.add, List.mem_append] at hmem
  rcases hmem with (hmem | hmem) | hmem
  · rcases Bool.eq_false_or_eq_true
        (ls.any fun l => startsWithStr l.name "size/" && decide (newLabel = some l.name)) with
      hany | hany
    · rw [hany] at hmem
      simp at hmem
    · rw [hany] at hmem
      simp only [Bool.false_eq_true, if_false, List.mem_singleton] at hmem
      exact hpred.2 hmem.symm
  · by_cases hx : newLabel = some "size/XXS"
    · simp [hx] at hmem
    · simp only [hx, if_false, List.mem_singleton, Option.some.injEq] at hmem
      rw [hmem] at hpred
      exact absurd hpred.1 (by decide)
  · rcases flag with _ | _
    · simp at hmem
    · simp only [if_true, List.mem_singleton, Option.some.injEq] at hmem
      rw [hmem] at hpred
      exact absurd hpred.1 (by decide)

/-- Witness for C5 at a concrete input: `size/S` is removed when moving
from `size/S` to `size/M`, and is indeed not in the `add` list. -/
theorem add_remove_disjoint_witness :
    "size/S" ∈ (getLabelChanges (some "size/M") [⟨"size/S"⟩] false).remove ∧
      some "size/S" ∉ (getLabelChanges (some "size/M") [⟨"size/S"⟩] false).add :=
  ⟨by decide, add_remove_disjoint (some "size/M") [⟨"size/S"⟩] false "size/S" (by decide)⟩

/-- Claim C10: when the desired label is absent or a `size/`-prefixed
string (the only shapes `getSizeLabel` produces), the `add` list of the
delta has no duplicates and at most three entries. -/
theorem add_nodup_short (newLabel : Option String) (ls : List Label) (flag : Bool)
    (h : ∀ s, newLabel = some s → startsWithStr s "size/" = true) :
    (getLabelChanges newLabel ls flag).add.Nodup ∧
      (getLabelChanges newLabel ls flag).add.length ≤ 3 := by
  have h1 : newLabel ≠ some "translation" := by
    intro he
    exact absurd (h _ he) (by decide)
  have h2 : newLabel ≠ some "update" := by
    intro he
    exact absurd (h _ he) (by decide)
  rw [getLabelChanges_eq]
  simp only [Delta.add]
  split_ifs <;>
    simp_all [List.nodup_cons, List.Nodup]

/-- Witness for C10 at a concrete input: moving to `size/M` with the flag
on over an empty label set yields an `add` list without duplicates and
of length at most three. -/
theorem add_nodup_short_witness :
    (getLabelChanges (some "size/M") [] true).add.Nodup ∧
      (getLabelChanges (some "size/M") [] true).add.length ≤ 3 :=
  add_nodup_short (some "size/M") [] true
    (fun s hs => by cases hs; decide)

/-! ## Classifier lemmas -/

/-- The `getSizeLabel` fold keeps the label of the last entry whose key
is at most the metric, and the initial `null` otherwise. -/
lemma foldl_eq_lastMatch (m : Nat) :
    ∀ (l : List (Nat × String)) (acc : Option String),
      l.foldl (fun label p => if p.1 ≤ m then some ("size/" ++ p.2) else label) acc =
        match lastMatch m l with
        | some q => some ("size/" ++ q.2)
        | none => acc := by
  intro l
  induction l with
  | nil => intro acc; simp [lastMatch]
  | cons p t ih =>
    intro acc
    rw [List.foldl_cons, ih]
    cases hq : lastMatch m t with
    | some q => simp [lastMatch, hq]
    | none =>
      by_cases hp : p.1 ≤ m <;> simp [lastMatch, hq, hp]

lemma lastMatch_some_mem (m : Nat) :
    ∀ (l : List (Nat × String)) (q : Nat × String),
      lastMatch m l = some q → q ∈ l ∧ q.1 ≤ m := by
  intro l
  induction l with
  | nil => intro q hq; simp [lastMatch] at hq
  | cons p t ih =>
    intro q hq
    rw [lastMatch] at hq
    cases ht : lastMatch m t with
    | some q' =>
      rw [ht] at hq
      simp only [Option.some.injEq] at hq
      subst hq
      rcases ih q' ht with ⟨hmem, hle⟩
      exact ⟨List.mem_cons_of_mem p hmem, hle⟩
    | none =>
      rw [ht] at hq
      by_cases hp : p.1 ≤ m
      · rw [if_pos hp] at hq
        simp only [Option.some.injEq] at hq
        subst hq
        exact ⟨List.mem_cons_self p t, hp⟩
      · rw [if_neg hp] at hq
        exact absurd hq (by simp)

lemma lastMatch_none (m : Nat) :
    ∀ l : List (Nat × String), lastMatch m l = none ↔ ∀ p ∈ l, ¬p.1 ≤ m := by
  intro l
  induction l with
  | nil => simp [lastMatch]
  | cons p t ih =>
    rw [lastMatch]
    cases ht : lastMatch m t with
    | some q =>
      simp only [reduceCtorEq, false_iff]
      intro hall
      rcases lastMatch_some_mem m t q ht with ⟨hmem, hle⟩
      exact hall q (List.mem_cons_of_mem p hmem) hle
    | none =>
      by_cases hp : p.1 ≤ m
      · rw [if_pos hp]
        simp only [reduceCtorEq, false_iff]
        intro hall
        exact hall p (List.mem_cons_self p t) hp
      · rw [if_neg hp]
        simp only [true_iff]
        intro x hx
        rcases List.mem_cons.mp hx with rfl | hx
        · exact hp
        · exact (ih.mp ht) x hx

/-- In a list sorted ascending by key, the last matching entry has the
greatest key among all entries with key at most `m`. -/
lemma lastMatch_max (m : Nat) :
    ∀ l : List (Nat × String), l.Sorted keyLe →
      ∀ q : Nat × String, lastMatch m l = some q →
        ∀ p ∈ l, p.1 ≤ m → p.1 ≤ q.1 := by
  intro l
  induction l with
  | nil => intro _ q hq; simp [lastMatch] at hq
  | cons a t ih =>
    intro hsor q hq p hp hpm
    rcases List.sorted_cons.mp hsor with ⟨ha, ht⟩
    rw [lastMatch] at hq
    cases hlt : lastMatch m t with
    | some q' =>
      rw [hlt] at hq
      simp only [Option.some.injEq] at hq
      subst hq
      rcases List.mem_cons.mp hp with rfl | hp
      · exact Nat.le_trans (ha q' (lastMatch_some_mem m t q' hlt).1) (Nat.le_refl _)
      · exact ih ht q' hlt p hp hpm
    | none =>
      rw [hlt] at hq
      by_cases ham : a.1 ≤ m
      · rw [if_pos ham] at hq
        simp only [Option.some.injEq] at hq
        subst hq
        rcases List.mem_cons.mp hp with rfl | hp
        · exact Nat.le_refl _
        · exact absurd hpm ((lastMatch_none m t).mp hlt p hp)
      · rw [if_neg ham] at hq
        exact absurd hq (by simp)

/-! ## Claims about the classifier -/

/-- Claim C6: `getSizeLabel` selects the tier of the greatest threshold
key at most the metric, prefixing it with `size/`, and yields the absent
label exactly when every key exceeds the metric; in particular metric 0
against the default table yields the absent label. -/
theorem getSizeLabel_spec (m : Nat) (sizes : List (Nat × String)) :
    (getSizeLabel m sizes = none ↔ ∀ p ∈ sizes, m < p.1) ∧
      (∀ lab, getSizeLabel m sizes = some lab →
        ∃ p, p ∈ sizes ∧ p.1 ≤ m ∧ lab = "size/" ++ p.2 ∧
          ∀ q ∈ sizes, q.1 ≤ m → q.1 ≤ p.1) ∧
      getSizeLabel 0 defaultSizes = none := by
  have hperm := List.perm_insertionSort keyLe sizes
  have hsorted := List.sorted_insertionSort keyLe sizes
  have hfold := foldl_eq_lastMatch m (List.insertionSort keyLe sizes) none
  refine ⟨?_, ?_, by decide⟩
  · rw [getSizeLabel, hfold]
    cases hq : lastMatch m (List.insertionSort keyLe sizes) with
    | none =>
      simp only [true_iff]
      intro p hp
      exact Nat.lt_of_not_le
        ((lastMatch_none m _).mp hq p (hperm.mem_iff.mpr hp))
    | some q =>
      simp only [reduceCtorEq, false_iff]
      intro hall
      rcases lastMatch_some_mem m _ q hq with ⟨hmem, hle⟩
      exact absurd hle (Nat.not_le_of_lt (hall q (hperm.mem_iff.mp hmem)))
  · intro lab hlab
    rw [getSizeLabel, hfold] at hlab
    cases hq : lastMatch m (List.insertionSort keyLe sizes) with
    | none => rw [hq] at hlab; exact absurd hlab (by simp)
    | some q =>
      rw [hq] at hlab
      simp only [Option.some.injEq] at hlab
      rcases lastMatch_some_mem m _ q hq with ⟨hmem, hle⟩
      refine ⟨q, hperm.mem_iff.mp hmem, hle, hlab.symm, ?_⟩
      intro p hp hpm
      exact lastMatch_max m _ hsorted q hq p (hperm.mem_iff.mpr hp) hpm

/-- Witness for C6 at a concrete input: on the unsorted table
`[(10, XS), (1, XXS)]` with metric 5 the classifier returns `size/XXS`,
and the characterization produces the witnessing entry. -/
theorem getSizeLabel_spec_witness :
    getSizeLabel 5 [(10, "XS"), (1, "XXS")] = some "size/XXS" ∧
      ∃ p, p ∈ [(10, "XS"), (1, "XXS")] ∧ p.1 ≤ 5 ∧ "size/XXS" = "size/" ++ p.2 ∧
        ∀ q ∈ [(10, "XS"), (1, "XXS")], q.1 ≤ 5 → q.1 ≤ p.1 :=
  ⟨by decide, (getSizeLabel_spec 5 [(10, "XS"), (1, "XXS")]).2.1 "size/XXS" (by decide)⟩

/-- Closed form of `getSizeLabel` on the default table. -/
lemma getSizeLabel_default_eq (m : Nat) :
    getSizeLabel m defaultSizes =
      if 20000 ≤ m then some "size/XXL"
      else if 10000 ≤ m then some "size/XL"
      else if 5000 ≤ m then some "size/L"
      else if 1000 ≤ m then some "size/M"
      else if 100 ≤ m then some "size/S"
      else if 10 ≤ m then some "size/XS"
      else if 1 ≤ m then some "size/XXS"
      else none := rfl

/-- The tier index as a function of the metric under the default table. -/
lemma tierIdx_default (m : Nat) :
    tierIdx (getSizeLabel m defaultSizes) =
      if 20000 ≤ m then 7
      else if 10000 ≤ m then 6
      else if 5000 ≤ m then 5
      else if 1000 ≤ m then 4
      else if 100 ≤ m then 3
      else if 10 ≤ m then 2
      else if 1 ≤ m then 1
      else 0 := by
  rw [getSizeLabel_default_eq]
  split_ifs <;> rfl

set_option maxHeartbeats 1600000 in
/-- Claim C9: classification with the default table is monotone in the
metric, measuring tiers by their index with the absent label below every
tier. -/
theorem getSizeLabel_monotone (m1 m2 : Nat) (h : m1 < m2) :
    tierIdx (getSizeLabel m1 defaultSizes) ≤ tierIdx (getSizeLabel m2 defaultSizes) := by
  rw [tierIdx_default, tierIdx_default]
  split_ifs <;> omega

/-- Witness for C9 at a concrete input pair. -/
theorem getSizeLabel_monotone_witness :
    3 < 20 ∧
      tierIdx (getSizeLabel 3 defaultSizes) ≤ tierIdx (getSizeLabel 20 defaultSizes) :=
  ⟨by decide, getSizeLabel_monotone 3 20 (by decide)⟩

/-! ## Ignore-predicate lemmas -/

/-- Complete characterization of the rule loop: starting from flag `b`,
the loop returns `true` exactly when an exclude rule matches (or the
flag was already set) and no negated rule matches. -/
lemma ignoredLoop_eq (pathname : String) :
    ∀ (rules : List IgnoreRule) (b : Bool),
      ignoredLoop pathname rules b =
        ((b || rules.any fun r => !r.isNegate && r.test pathname) &&
          !(rules.any fun r => r.isNegate && r.test pathname)) := by
  intro rules
  induction rules with
  | nil => intro b; simp [ignoredLoop]
  | cons r rs ih =>
    intro b
    cases hn : r.isNegate <;> cases ht : r.test pathname <;> cases b <;>
      simp [ignoredLoop, hn, ht, ih]

/-! ## Claims about the ignore predicate and the metric -/

/-- Claim C7: the compiled predicate evaluates rules in declaration
order; a matching negated rule forces the non-sentinel path to be
not-ignored regardless of any exclude match, a first exclude match sets
ignored with later matches changing nothing, and a path matching no rule
is not ignored — all summarized by the closed form below.  On the rule
pair `docs/**`, `!docs/keep.md`, the path `a/docs/keep.md` is not
ignored while `a/docs/other.md` is. -/
theorem isIgnored_spec :
    (∀ (rules : List IgnoreRule) (p : String),
      isIgnored rules (some p) =
        ((p == "/dev/null") ||
          ((rules.any fun r => !r.isNegate && r.test (String.mk (p.data.drop 2))) &&
            !(rules.any fun r => r.isNegate && r.test (String.mk (p.data.drop 2)))))) ∧
      isIgnored [docsRule, keepRule] (some "a/docs/keep.md") = false ∧
      isIgnored [docsRule, keepRule] (some "a/docs/other.md") = true := by
  refine ⟨?_, by decide, by decide⟩
  intro rules p
  rw [isIgnored]
  cases hp : p == "/dev/null" <;>
    simp [hp, ignoredLoop_eq]

/-! ## Metric-inclusion lemmas -/

lemma totalMetric_foldl (rules : List IgnoreRule) :
    ∀ (files : List DiffFile) (a : Nat),
      files.foldl (fun acc f => if includedFile rules f then acc + fileCount f else acc) a =
        a + ((files.filter fun f => includedFile rules f).map fileCount).sum := by
  intro files
  induction files with
  | nil => intro a; simp
  | cons f t ih =>
    intro a
    by_cases hf : includedFile rules f = true <;>
      simp [List.filter_cons, hf, ih, Nat.add_assoc]

/-- Claim C8: a diff file contributes to the metric exactly when at least
one of its old and new paths is not ignored: the total metric is the sum
of the per-file counts over the files passing the inclusion test, a file
fails that test exactly when both paths are ignored, and a `null` path
or the `/dev/null` sentinel is always ignored. -/
theorem metric_inclusion_spec (rules : List IgnoreRule) (files : List DiffFile) :
    totalMetric rules files =
        ((files.filter fun f => includedFile rules f).map fileCount).sum ∧
      (∀ f : DiffFile, includedFile rules f = false ↔
        (isIgnored rules f.oldFileName = true ∧ isIgnored rules f.newFileName = true)) ∧
      isIgnored rules none = true ∧
      isIgnored rules (some "/dev/null") = true := by
  refine ⟨?_, ?_, rfl, ?_⟩
  · rw [totalMetric, totalMetric_foldl]
    simp
  · intro f
    cases h1 : isIgnored rules f.oldFileName <;>
      cases h2 : isIgnored rules f.newFileName <;>
        simp [includedFile, h1, h2]
  · rw [isIgnored]
    rfl

end SizeLabelAction
